import Mathlib

/-!
Verification of the usage-metering and quota-enforcement engine of
`services/wg-manager/wg_manager.py`.

Shallow embedding conventions:
* Byte counters and thresholds are Python arbitrary-precision integers,
  modelled as `Int`.
* Calendar dates are ISO-8601 `"YYYY-MM-DD"` strings in the source; the only
  operations ever applied to them are equality and the lexicographic TEXT
  comparison of sqlite, which on ISO dates coincides with chronological
  order.  Dates are therefore modelled as `Nat` with its linear order.
  Months (`"YYYY-MM"`) and peer public keys are only compared for equality
  and stay `String`.
* The three sqlite tables created by `_get_db` are modelled as lists of row
  structures; the PRIMARY KEY constraints become `Nodup` facts about the
  rows' key projections.  `INSERT OR REPLACE` / `ON CONFLICT DO UPDATE`
  become a keyed upsert on the list.
* The percentage `pct = used / limit_bytes * 100` is computed by Python in
  floating point; it is modelled exactly over `Rat`.
* Fallible paths (a Python exception aborting the uncommitted transaction)
  are modelled with `Except Unit`.
-/

/-- Row of `traffic_cumulative` (`_get_db`, table 1): one row per peer with
the monotone baseline and the last raw reading seen per channel. -/
structure CumRow where
  public_key : String
  baseline_rx : Int
  baseline_tx : Int
  last_seen_rx : Int
  last_seen_tx : Int
deriving DecidableEq, Repr

/-- Row of `traffic_daily` (`_get_db`, table 2): lifetime total-to-date for a
peer on a calendar date. -/
structure DailyRow where
  public_key : String
  date : Nat
  rx_bytes : Int
  tx_bytes : Int
deriving DecidableEq, Repr

/-- Row of `traffic_alerts` (`_get_db`, table 3): dedup marker for one
(peer, month, threshold) alert. -/
structure AlertRow where
  public_key : String
  month : String
  threshold : Int
  alerted_at : String
deriving DecidableEq, Repr

/-- The persistent state of the three tables of the traffic database. -/
structure TrafficDB where
  cumulative : List CumRow
  daily : List DailyRow
  alerts : List AlertRow
deriving DecidableEq, Repr

/-- PRIMARY KEY of `traffic_cumulative`. -/
def cumKey (r : CumRow) : String := r.public_key

/-- PRIMARY KEY of `traffic_daily`. -/
def dailyKey (r : DailyRow) : String × Nat := (r.public_key, r.date)

/-- PRIMARY KEY of `traffic_alerts`. -/
def alertKey (a : AlertRow) : String × String × Int :=
  (a.public_key, a.month, a.threshold)

/-- `SELECT ... WHERE <key> = k` with a unique key: the first row whose key
projection equals `k`. -/
def findBy {α κ : Type} [DecidableEq κ] (key : α → κ) (l : List α) (k : κ) :
    Option α :=
  l.find? (fun r => decide (key r = k))

/-- Keyed upsert (`INSERT OR REPLACE` / `ON CONFLICT DO UPDATE`): replace the
row with the same key if present, else append the new row. -/
def upsertBy {α κ : Type} [DecidableEq κ] (key : α → κ) (l : List α) (row : α) :
    List α :=
  if l.any (fun r => decide (key r = key row)) then
    l.map (fun r => if key r = key row then row else r)
  else
    l ++ [row]

/-- The PRIMARY KEY constraints of `_get_db`: key projections of the
cumulative and daily tables contain no duplicates. -/
def WellFormedDB (db : TrafficDB) : Prop :=
  (db.cumulative.map cumKey).Nodup ∧ (db.daily.map dailyKey).Nodup

instance : DecidablePred WellFormedDB := fun db =>
  inferInstanceAs
    (Decidable ((db.cumulative.map cumKey).Nodup ∧
      (db.daily.map dailyKey).Nodup))

/-- `snapshot_traffic` lines 265-274: load the peer's cumulative row, with
zero-valued defaults when the row is absent. -/
def loadCum (db : TrafficDB) (pk : String) : CumRow :=
  (findBy cumKey db.cumulative pk).getD ⟨pk, 0, 0, 0, 0⟩

/-- Reset detection for one channel (`snapshot_traffic` lines 276-279):
`if current < last_seen: baseline += last_seen`. -/
def foldedBase (baseline last_seen current : Int) : Int :=
  if current < last_seen then baseline + last_seen else baseline

/-- One iteration of the reconcile loop of `snapshot_traffic`
(lines 265-295) for an already-parsed reading: reset detection per channel,
unconditional `last_seen` update, and the same-day rollup upsert. -/
def reconStep (db : TrafficDB) (pk : String) (current_rx current_tx : Int)
    (today : Nat) : TrafficDB :=
  let c := loadCum db pk
  let baseline_rx := foldedBase c.baseline_rx c.last_seen_rx current_rx
  let baseline_tx := foldedBase c.baseline_tx c.last_seen_tx current_tx
  let cum' := upsertBy cumKey db.cumulative
    ⟨pk, baseline_rx, baseline_tx, current_rx, current_tx⟩
  let total_rx := baseline_rx + current_rx
  let total_tx := baseline_tx + current_tx
  { db with
    cumulative := cum'
    daily := upsertBy dailyKey db.daily ⟨pk, today, total_rx, total_tx⟩ }

/-- The whole reconcile pass of `snapshot_traffic` over a parsed snapshot:
one `reconStep` per `(public_key, rx, tx)` reading, all on the same date. -/
def reconcileList (db : TrafficDB) (snaps : List (String × Int × Int))
    (today : Nat) : TrafficDB :=
  snaps.foldl (fun s l => reconStep s l.1 l.2.1 l.2.2 today) db

/-- Modelled from the claim wording of the reset-detection rule: when either
channel regressed, fold BOTH previous `last_seen` values into the baselines;
then take the current reading as `last_seen`. -/
def specFoldRule (c : CumRow) (rx tx : Int) : CumRow :=
  if rx < c.last_seen_rx ∨ tx < c.last_seen_tx then
    ⟨c.public_key, c.baseline_rx + c.last_seen_rx,
      c.baseline_tx + c.last_seen_tx, rx, tx⟩
  else
    ⟨c.public_key, c.baseline_rx, c.baseline_tx, rx, tx⟩

/- ### Generic upsert/find lemmas -/

/-- Combined rx+tx total of a daily rollup row. -/
def rowTotal (r : DailyRow) : Int := r.rx_bytes + r.tx_bytes

/-- The peer's `traffic_daily` rows with `date >= month_start` (the rows the
`GROUP BY public_key` aggregates range over). -/
def inMonthRows (daily : List DailyRow) (pk : String) (monthStart : Nat) :
    List DailyRow :=
  daily.filter (fun r => decide (r.public_key = pk) &&
    decide (monthStart ≤ r.date))

/-- `SELECT rx_bytes, tx_bytes FROM traffic_daily WHERE public_key = ? AND
date < ? ORDER BY date DESC LIMIT 1`: the peer's most recent pre-month
row. -/
def preMonthRow (daily : List DailyRow) (pk : String) (monthStart : Nat) :
    Option DailyRow :=
  let pre := daily.filter (fun r => decide (r.public_key = pk) &&
    decide (r.date < monthStart))
  match (pre.map (fun r => r.date)).max? with
  | some dd => pre.find? (fun r => decide (r.date = dd))
  | none => none

/-- The per-peer body of `get_monthly_usage` (lines 493-531): `none` models
the peer being absent from the returned dict. -/
def getMonthlyUsagePeer (daily : List DailyRow) (pk : String)
    (monthStart : Nat) : Option Int :=
  let dates := (inMonthRows daily pk monthStart).map (fun r => r.date)
  match dates.min?, dates.max? with
  | some first_date, some last_date =>
    if first_date = last_date then
      match findBy dailyKey daily (pk, last_date),
          preMonthRow daily pk monthStart with
      | some row, some prev =>
        some (max ((row.rx_bytes - prev.rx_bytes) +
          (row.tx_bytes - prev.tx_bytes)) 0)
      | some row, none => some (row.rx_bytes + row.tx_bytes)
      | none, _ => none
    else
      match findBy dailyKey daily (pk, first_date),
          findBy dailyKey daily (pk, last_date) with
      | some first_row, some last_row =>
        let base :=
          match preMonthRow daily pk monthStart with
          | some prev => (prev.rx_bytes, prev.tx_bytes)
          | none => (first_row.rx_bytes, first_row.tx_bytes)
        some (max ((last_row.rx_bytes - base.1) +
          (last_row.tx_bytes - base.2)) 0)
      | _, _ => none
  | _, _ => none

/-- A peer's effective monthly usage: every consumer of the
`get_monthly_usage` dict defaults an absent key to 0
(`monthly.get(pubkey, 0)`). -/
def usageOf (daily : List DailyRow) (pk : String) (monthStart : Nat) : Int :=
  (getMonthlyUsagePeer daily pk monthStart).getD 0

/-- Modelled from the claim wording of `usageInMonth`: the same case split,
but with plain subtraction, no flooring at zero. -/
def usageClaimRef (daily : List DailyRow) (pk : String) (monthStart : Nat) :
    Int :=
  match inMonthRows daily pk monthStart with
  | [] => 0
  | [r] =>
    match preMonthRow daily pk monthStart with
    | some p => rowTotal r - rowTotal p
    | none => rowTotal r
  | r1 :: r2 :: rs =>
    let rows := r1 :: r2 :: rs
    let earliest := rows.foldl (fun acc x => if x.date < acc.date then x
      else acc) r1
    let latest := rows.foldl (fun acc x => if acc.date < x.date then x
      else acc) r1
    match preMonthRow daily pk monthStart with
    | some p => rowTotal latest - rowTotal p
    | none => rowTotal latest - rowTotal earliest

/-- One alert/block event appended to the list returned by
`check_traffic_limits`. -/
structure TrafficEvent where
  username : String
  public_key : String
  usage : Int
  limit : Int
  pct : Int
  action : String
deriving DecidableEq, Repr

/-- The configuration and collaborators read by `check_traffic_limits`:
`gateOk` is the success flag of the `CommandResult` returned by
`disable_peer` (the `wg set <if> peer <key> remove` call); `limitGb` is
`settings.wg_traffic_limit_gb`; `alertPcts` the parsed
`settings.wg_traffic_alert_pct` list; `peerMap` the
`_get_peer_to_user_map` lookup; `month` the current `"%Y-%m"` string and
`nowIso` the `utcnow().isoformat()` timestamp. -/
structure LimitCtx where
  gateOk : String → Bool
  limitGb : Int
  alertPcts : List Int
  peerMap : String → Option String
  month : String
  nowIso : String

/-- `SELECT 1 FROM traffic_alerts WHERE public_key = ? AND month = ? AND
threshold = ?` followed by the truthiness test on `fetchone()`. -/
def alertedB (alerts : List AlertRow) (pk month : String) (t : Int) : Bool :=
  alerts.any (fun a => decide (a.public_key = pk) &&
    decide (a.month = month) && decide (a.threshold = t))

/-- `pct = (used / limit_bytes) * 100 if limit_bytes else 0`, modelled
exactly over the rationals. -/
def pctOf (limitBytes used : Int) : Rat :=
  if limitBytes = 0 then 0 else (used : Rat) / (limitBytes : Rat) * 100

/-- The inner `for threshold in thresholds` loop of `check_traffic_limits`
for one peer: break at the first threshold `pct` does not reach, skip
(`continue`) thresholds already alerted, otherwise insert the alert row,
call the gate when `threshold >= 100` (recording the discarded success
flag), and append the event.  Returns the new alert table, the events and
the trace of gate calls made. -/
def perPeerLoop (ctx : LimitCtx) (pk un : String) (used limitBytes : Int)
    (pct : Rat) (alerts : List AlertRow) :
    List Int → List AlertRow × List TrafficEvent × List (String × Bool)
  | [] => (alerts, [], [])
  | t :: rest =>
    if pct < (t : Rat) then (alerts, [], [])
    else if alertedB alerts pk ctx.month t then
      perPeerLoop ctx pk un used limitBytes pct alerts rest
    else
      let alerts2 := alerts ++ [⟨pk, ctx.month, t, ctx.nowIso⟩]
      let gcalls := if 100 ≤ t then [(pk, ctx.gateOk pk)] else []
      let ev : TrafficEvent :=
        ⟨un, pk, used, limitBytes, t, if 100 ≤ t then "blocked" else "warn"⟩
      let r := perPeerLoop ctx pk un used limitBytes pct alerts2 rest
      (r.1, ev :: r.2.1, gcalls ++ r.2.2)

/-- The outer `for pubkey, used in usage_map.items()` loop of
`check_traffic_limits`: peers without a user mapping are skipped. -/
def checkPeers (ctx : LimitCtx) (thresholds : List Int) (limitBytes : Int)
    (alerts : List AlertRow) :
    List (String × Int) →
      List AlertRow × List TrafficEvent × List (String × Bool)
  | [] => (alerts, [], [])
  | (pk, used) :: rest =>
    match ctx.peerMap pk with
    | none => checkPeers ctx thresholds limitBytes alerts rest
    | some un =>
      let r1 := perPeerLoop ctx pk un used limitBytes
        (pctOf limitBytes used) alerts thresholds
      let r2 := checkPeers ctx thresholds limitBytes r1.1 rest
      (r2.1, r1.2.1 ++ r2.2.1, r1.2.2 ++ r2.2.2)

/-- `check_traffic_limits`: disabled entirely when the configured limit is
falsy; otherwise walk every usage entry against the ascending-sorted
thresholds with `limit_bytes = limit_gb * 1024 ** 3`.  The usage map is the
dict computed by `get_monthly_usage`, taken here as a parameter. -/
def checkTrafficLimits (ctx : LimitCtx) (alerts : List AlertRow)
    (usageMap : List (String × Int)) :
    List AlertRow × List TrafficEvent × List (String × Bool) :=
  if ctx.limitGb = 0 then (alerts, [], [])
  else
    checkPeers ctx (ctx.alertPcts.insertionSort (· ≤ ·))
      (ctx.limitGb * 1024 ^ 3) alerts usageMap

/-- The `PeerTraffic` dataclass (lines 199-207). -/
structure PeerTraffic where
  username : String
  public_key : String
  allowed_ips : String
  latest_handshake : Int
  rx_bytes : Int
  tx_bytes : Int
  endpoint : String
deriving DecidableEq, Repr

/-- One data line of a raw dump, already split on tabs
(`line.split("\t")`): a line with fewer than 8 fields is skipped
(`ok none`); a numeric field that `int()` cannot parse raises, modelled as
`error` (aborting the batch); otherwise the typed record is produced, with
the `"(none)"` endpoint sentinel normalized to the empty string. -/
def parsePeerLine (peerMap : String → Option String) (parts : List String) :
    Except Unit (Option PeerTraffic) :=
  if parts.length < 8 then Except.ok none
  else
    match ((parts[4]?).getD "").toInt?, ((parts[5]?).getD "").toInt?,
        ((parts[6]?).getD "").toInt? with
    | some hs, some rx, some tx =>
      Except.ok (some
        { username := (peerMap ((parts[0]?).getD "")).getD
            (((parts[0]?).getD "").take 16 ++ "...")
          public_key := (parts[0]?).getD ""
          allowed_ips := (parts[3]?).getD ""
          latest_handshake := hs
          rx_bytes := rx
          tx_bytes := tx
          endpoint := if (parts[2]?).getD "" = "(none)" then ""
            else (parts[2]?).getD "" })
    | _, _, _ => Except.error ()

/-- The line loop of `_parse_wg_dump` over `lines[1:]`. -/
def parseGo (peerMap : String → Option String) :
    List (List String) → Except Unit (List PeerTraffic)
  | [] => Except.ok []
  | l :: rest =>
    match parsePeerLine peerMap l with
    | Except.error e => Except.error e
    | Except.ok none => parseGo peerMap rest
    | Except.ok (some p) => (parseGo peerMap rest).map (fun ps => p :: ps)

/-- `_parse_wg_dump`: `if len(lines) < 2: return []`, then parse every line
after the header. -/
def parseWgDump (peerMap : String → Option String)
    (lines : List (List String)) : Except Unit (List PeerTraffic) :=
  if lines.length < 2 then Except.ok []
  else parseGo peerMap lines.tail

/-- One data line of the reconcile loop of `snapshot_traffic`: skip lines
with fewer than 8 fields, otherwise parse the byte counters and apply the
accounting step. -/
def snapshotLine (db : TrafficDB) (parts : List String) (today : Nat) :
    Except Unit TrafficDB :=
  if parts.length < 8 then Except.ok db
  else
    match ((parts[5]?).getD "").toInt?, ((parts[6]?).getD "").toInt? with
    | some rx, some tx =>
      Except.ok (reconStep db ((parts[0]?).getD "") rx tx today)
    | _, _ => Except.error ()

/-- The line loop of `snapshot_traffic` threading the database state; an
exception leaves the transaction uncommitted, so the whole pass yields no
state. -/
def snapshotGo (today : Nat) :
    TrafficDB → List (List String) → Except Unit TrafficDB
  | db, [] => Except.ok db
  | db, l :: rest =>
    match snapshotLine db l today with
    | Except.error e => Except.error e
    | Except.ok db2 => snapshotGo today db2 rest

/-- The reconcile pass of `snapshot_traffic` over the raw dump lines
(`for line in lines[1:]`). -/
def snapshotDump (db : TrafficDB) (lines : List (List String))
    (today : Nat) : Except Unit TrafficDB :=
  snapshotGo today db lines.tail

theorem findBy_nil {α κ : Type} [DecidableEq κ] (key : α → κ) (k : κ) :
    findBy key ([] : List α) k = none := rfl

theorem findBy_cons_pos {α κ : Type} [DecidableEq κ] (key : α → κ)
    (a : α) (as : List α) {k : κ} (h : key a = k) :
    findBy key (a :: as) k = some a := by
  unfold findBy
  exact List.find?_cons_of_pos _ (by simpa using h)

theorem findBy_cons_neg {α κ : Type} [DecidableEq κ] (key : α → κ)
    (a : α) (as : List α) {k : κ} (h : key a ≠ k) :
    findBy key (a :: as) k = findBy key as k := by
  unfold findBy
  exact List.find?_cons_of_neg _ (by simpa using h)

theorem findBy_mapReplace_ne {α κ : Type} [DecidableEq κ] (key : α → κ)
    (l : List α) (row : α) (k : κ) (hk : k ≠ key row) :
    findBy key (l.map (fun r => if key r = key row then row else r)) k =
      findBy key l k := by
  induction l with
  | nil => rfl
  | cons a as ih =>
    by_cases hak : key a = key row
    · simp only [List.map_cons, if_pos hak]
      rw [findBy_cons_neg key _ _ (fun he => hk he.symm),
        findBy_cons_neg key _ _ (by rw [hak]; exact fun he => hk he.symm)]
      exact ih
    · simp only [List.map_cons, if_neg hak]
      by_cases hk2 : key a = k
      · rw [findBy_cons_pos key _ _ hk2, findBy_cons_pos key _ _ hk2]
      · rw [findBy_cons_neg key _ _ hk2, findBy_cons_neg key _ _ hk2]
        exact ih

theorem findBy_append_single_ne {α κ : Type} [DecidableEq κ] (key : α → κ)
    (l : List α) (row : α) (k : κ) (hk : k ≠ key row) :
    findBy key (l ++ [row]) k = findBy key l k := by
  induction l with
  | nil =>
    simp only [List.nil_append]
    rw [findBy_cons_neg key _ _ (fun he => hk he.symm)]
  | cons a as ih =>
    by_cases hk2 : key a = k
    · rw [List.cons_append, findBy_cons_pos key _ _ hk2,
        findBy_cons_pos key _ _ hk2]
    · rw [List.cons_append, findBy_cons_neg key _ _ hk2,
        findBy_cons_neg key _ _ hk2]
      exact ih

theorem findBy_upsertBy_self {α κ : Type} [DecidableEq κ] (key : α → κ)
    (l : List α) (row : α) :
    findBy key (upsertBy key l row) (key row) = some row := by
  unfold upsertBy
  split
  · rename_i h
    induction l with
    | nil => simp at h
    | cons a as ih =>
      simp only [List.any_cons, Bool.or_eq_true, decide_eq_true_eq] at h
      by_cases hak : key a = key row
      · simp only [List.map_cons, if_pos hak]
        exact findBy_cons_pos key _ _ rfl
      · simp only [List.map_cons, if_neg hak]
        rw [findBy_cons_neg key _ _ hak]
        apply ih
        rcases h with h | h
        · exact absurd h hak
        · simpa using h
  · rename_i h
    induction l with
    | nil =>
      simp only [List.nil_append]
      exact findBy_cons_pos key _ _ rfl
    | cons a as ih =>
      simp only [List.any_cons, Bool.or_eq_true, decide_eq_true_eq,
        not_or] at h
      rw [List.cons_append, findBy_cons_neg key _ _ h.1]
      exact ih (by simpa using h.2)

theorem findBy_upsertBy_ne {α κ : Type} [DecidableEq κ] (key : α → κ)
    (l : List α) (row : α) (k : κ) (hk : k ≠ key row) :
    findBy key (upsertBy key l row) k = findBy key l k := by
  unfold upsertBy
  split
  · exact findBy_mapReplace_ne key l row k hk
  · exact findBy_append_single_ne key l row k hk

theorem findBy_eq_some_of_mem {α κ : Type} [DecidableEq κ] (key : α → κ)
    {l : List α} {r : α} (hnd : (l.map key).Nodup) (hr : r ∈ l) :
    findBy key l (key r) = some r := by
  induction l with
  | nil => cases hr
  | cons a as ih =>
    simp only [List.map_cons, List.nodup_cons, List.mem_map] at hnd
    rcases List.mem_cons.mp hr with h | h
    · subst h
      exact findBy_cons_pos key _ _ rfl
    · have hne : key a ≠ key r := by
        intro he
        exact hnd.1 ⟨r, h, he.symm⟩
      rw [findBy_cons_neg key _ _ hne]
      exact ih hnd.2 h

theorem upsertBy_self {α κ : Type} [DecidableEq κ] (key : α → κ)
    {l : List α} {row : α} (hnd : (l.map key).Nodup)
    (hfind : findBy key l (key row) = some row) :
    upsertBy key l row = l := by
  have hmem : row ∈ l := List.mem_of_find?_eq_some hfind
  have hany : l.any (fun r => decide (key r = key row)) = true := by
    simp only [List.any_eq_true, decide_eq_true_eq]
    exact ⟨row, hmem, rfl⟩
  have hinj := List.inj_on_of_nodup_map hnd
  unfold upsertBy
  rw [if_pos hany]
  have hcongr : ∀ r ∈ l, (if key r = key row then row else r) = r := by
    intro r hrl
    by_cases h : key r = key row
    · rw [if_pos h]
      exact (hinj hrl hmem h).symm
    · rw [if_neg h]
  calc l.map (fun r => if key r = key row then row else r)
      = l.map id := List.map_congr_left (by
        intro r hrl
        rw [hcongr r hrl, id])
    _ = l := List.map_id l

theorem nodup_upsertBy {α κ : Type} [DecidableEq κ] (key : α → κ)
    {l : List α} (row : α) (hnd : (l.map key).Nodup) :
    ((upsertBy key l row).map key).Nodup := by
  unfold upsertBy
  split
  · have heq : (l.map (fun r => if key r = key row then row else r)).map key
        = l.map key := by
      rw [List.map_map]
      apply List.map_congr_left
      intro r _
      by_cases h : key r = key row
      · simp [h]
      · simp [h]
    rw [heq]
    exact hnd
  · rename_i h
    simp only [List.any_eq_true, decide_eq_true_eq, not_exists, not_and] at h
    simp only [List.map_append, List.map_cons, List.map_nil]
    rw [List.nodup_append]
    refine ⟨hnd, List.nodup_singleton _, ?_⟩
    intro k hk
    simp only [List.mem_map] at hk
    obtain ⟨r, hrl, hrk⟩ := hk
    simp only [List.mem_singleton]
    intro he
    exact h r hrl (by rw [hrk, he])

/- ### Facts about a single reconcile step -/

theorem findCum_reconStep_self (db : TrafficDB) (pk : String)
    (rx tx : Int) (today : Nat) :
    findBy cumKey (reconStep db pk rx tx today).cumulative pk =
      some ⟨pk,
        foldedBase (loadCum db pk).baseline_rx (loadCum db pk).last_seen_rx rx,
        foldedBase (loadCum db pk).baseline_tx (loadCum db pk).last_seen_tx tx,
        rx, tx⟩ := by
  simp only [reconStep]
  have h := findBy_upsertBy_self cumKey db.cumulative
    (⟨pk,
      foldedBase (loadCum db pk).baseline_rx (loadCum db pk).last_seen_rx rx,
      foldedBase (loadCum db pk).baseline_tx (loadCum db pk).last_seen_tx tx,
      rx, tx⟩ : CumRow)
  simpa [cumKey] using h

theorem findDaily_reconStep_self (db : TrafficDB) (pk : String)
    (rx tx : Int) (today : Nat) :
    findBy dailyKey (reconStep db pk rx tx today).daily (pk, today) =
      some ⟨pk, today,
        foldedBase (loadCum db pk).baseline_rx (loadCum db pk).last_seen_rx rx
          + rx,
        foldedBase (loadCum db pk).baseline_tx (loadCum db pk).last_seen_tx tx
          + tx⟩ := by
  simp only [reconStep]
  have h := findBy_upsertBy_self dailyKey db.daily
    (⟨pk, today,
      foldedBase (loadCum db pk).baseline_rx (loadCum db pk).last_seen_rx rx
        + rx,
      foldedBase (loadCum db pk).baseline_tx (loadCum db pk).last_seen_tx tx
        + tx⟩ : DailyRow)
  simpa [dailyKey] using h

theorem loadCum_reconStep (db : TrafficDB) (pk : String)
    (rx tx : Int) (today : Nat) :
    loadCum (reconStep db pk rx tx today) pk =
      ⟨pk,
        (if rx < (loadCum db pk).last_seen_rx then
          (loadCum db pk).baseline_rx + (loadCum db pk).last_seen_rx
        else (loadCum db pk).baseline_rx),
        (if tx < (loadCum db pk).last_seen_tx then
          (loadCum db pk).baseline_tx + (loadCum db pk).last_seen_tx
        else (loadCum db pk).baseline_tx),
        rx, tx⟩ := by
  rw [loadCum, findCum_reconStep_self, Option.getD_some, foldedBase,
    foldedBase]

/-- C1.  Lifetime-total monotonicity under reset: after a reconcile step on a
nonnegative reading, `baseline + current` (the new `baseline + last_seen`) is
at least the previous `baseline + last_seen`, on each of the rx and tx
channels, even when the reading is below the previous `last_seen`. -/
theorem lifetime_total_monotone (db : TrafficDB) (pk : String)
    (rx tx : Int) (today : Nat) (hrx : 0 ≤ rx) (htx : 0 ≤ tx) :
    (loadCum db pk).baseline_rx + (loadCum db pk).last_seen_rx ≤
      (loadCum (reconStep db pk rx tx today) pk).baseline_rx +
      (loadCum (reconStep db pk rx tx today) pk).last_seen_rx ∧
    (loadCum db pk).baseline_tx + (loadCum db pk).last_seen_tx ≤
      (loadCum (reconStep db pk rx tx today) pk).baseline_tx +
      (loadCum (reconStep db pk rx tx today) pk).last_seen_tx := by
  rw [loadCum_reconStep]
  dsimp only
  constructor
  · split <;> omega
  · split <;> omega

/-- Witness for C1 on the spec's own example: a stored reading of 50000
followed by the post-reset reading 1000. -/
theorem lifetime_total_monotone_witness :
    (0 : Int) ≤ 1000 ∧
    ((loadCum (reconStep ⟨[⟨"p", 0, 0, 50000, 0⟩], [], []⟩ "p" 1000 0 7)
        "p").baseline_rx +
      (loadCum (reconStep ⟨[⟨"p", 0, 0, 50000, 0⟩], [], []⟩ "p" 1000 0 7)
        "p").last_seen_rx ≥
      (loadCum (⟨[⟨"p", 0, 0, 50000, 0⟩], [], []⟩ : TrafficDB) "p").baseline_rx +
      (loadCum (⟨[⟨"p", 0, 0, 50000, 0⟩], [], []⟩ : TrafficDB) "p").last_seen_rx) :=
  ⟨by decide,
    (lifetime_total_monotone ⟨[⟨"p", 0, 0, 50000, 0⟩], [], []⟩ "p" 1000 0 7
      (by decide) (by decide)).1⟩

/-- C2 (counterexample).  The claimed fold rule — on `current_rx <
last_seen_rx OR current_tx < last_seen_tx`, fold BOTH `last_seen` values into
the baselines — mispredicts the code: with stored `last_seen = (10, 5)` and
reading `(0, 20)`, the rx channel regressed, yet the code leaves
`baseline_tx` untouched while the claimed rule folds 5 into it. -/
theorem reset_fold_rule_counterexample :
    loadCum (reconStep ⟨[⟨"p", 0, 0, 10, 5⟩], [], []⟩ "p" 0 20 3) "p" ≠
      specFoldRule (loadCum (⟨[⟨"p", 0, 0, 10, 5⟩], [], []⟩ : TrafficDB) "p")
        0 20 := by
  decide

/-- C2 (amended).  Per-channel reset fold: a channel's baseline absorbs its
previous `last_seen` exactly when that same channel's current reading is
below it — the channels are folded independently, not jointly — and
`last_seen_rx/tx` are set to the current reading unconditionally. -/
theorem reset_fold_per_channel (db : TrafficDB) (pk : String)
    (rx tx : Int) (today : Nat) :
    loadCum (reconStep db pk rx tx today) pk =
      ⟨pk,
        (if rx < (loadCum db pk).last_seen_rx then
          (loadCum db pk).baseline_rx + (loadCum db pk).last_seen_rx
        else (loadCum db pk).baseline_rx),
        (if tx < (loadCum db pk).last_seen_tx then
          (loadCum db pk).baseline_tx + (loadCum db pk).last_seen_tx
        else (loadCum db pk).baseline_tx),
        rx, tx⟩ :=
  loadCum_reconStep db pk rx tx today

/-- C6.  Same-day rollup overwrite: after any two reconcile steps for the
same peer on the same date, the `traffic_daily` row at `(peer, date)` holds
exactly the lifetime totals `baseline + current` of the LATEST step — the
row is overwritten in place, never summed.  In particular, on a fresh
database, device totals 100 then 150 leave the row at 150, not 250. -/
theorem same_day_rollup_overwrite (db : TrafficDB) (pk : String) (d : Nat)
    (rx1 tx1 rx2 tx2 : Int) :
    findBy dailyKey
        (reconStep (reconStep db pk rx1 tx1 d) pk rx2 tx2 d).daily (pk, d) =
      some ⟨pk, d,
        (loadCum (reconStep (reconStep db pk rx1 tx1 d) pk rx2 tx2 d)
            pk).baseline_rx + rx2,
        (loadCum (reconStep (reconStep db pk rx1 tx1 d) pk rx2 tx2 d)
            pk).baseline_tx + tx2⟩ ∧
    (loadCum (reconStep (reconStep db pk rx1 tx1 d) pk rx2 tx2 d)
        pk).last_seen_rx = rx2 ∧
    (loadCum (reconStep (reconStep db pk rx1 tx1 d) pk rx2 tx2 d)
        pk).last_seen_tx = tx2 ∧
    findBy dailyKey
        (reconStep (reconStep ⟨[], [], []⟩ "p" 100 0 0) "p" 150 0 0).daily
        ("p", 0) =
      some ⟨"p", 0, 150, 0⟩ := by
  refine ⟨?_, ?_, ?_, by decide⟩
  · rw [findDaily_reconStep_self]
    simp only [loadCum_reconStep, foldedBase]
  · simp only [loadCum_reconStep]
  · simp only [loadCum_reconStep]

/- ### Reconcile over a whole snapshot: frame and postcondition lemmas -/

theorem reconStep_alerts (db : TrafficDB) (pk : String) (rx tx : Int)
    (d : Nat) : (reconStep db pk rx tx d).alerts = db.alerts := rfl

theorem reconStep_frame_cum (db : TrafficDB) (pk : String) (rx tx : Int)
    (d : Nat) (k : String) (hk : k ≠ pk) :
    findBy cumKey (reconStep db pk rx tx d).cumulative k =
      findBy cumKey db.cumulative k := by
  simp only [reconStep]
  exact findBy_upsertBy_ne cumKey db.cumulative _ k hk

theorem reconStep_frame_daily (db : TrafficDB) (pk : String) (rx tx : Int)
    (d : Nat) (k : String) (dd : Nat) (hk : k ≠ pk) :
    findBy dailyKey (reconStep db pk rx tx d).daily (k, dd) =
      findBy dailyKey db.daily (k, dd) := by
  simp only [reconStep]
  apply findBy_upsertBy_ne
  intro he
  exact hk (congrArg Prod.fst he)

theorem wf_reconStep (db : TrafficDB) (pk : String) (rx tx : Int) (d : Nat)
    (hwf : WellFormedDB db) : WellFormedDB (reconStep db pk rx tx d) := by
  obtain ⟨h1, h2⟩ := hwf
  constructor
  · simp only [reconStep]
    exact nodup_upsertBy cumKey _ h1
  · simp only [reconStep]
    exact nodup_upsertBy dailyKey _ h2

theorem reconcileList_nil (db : TrafficDB) (d : Nat) :
    reconcileList db [] d = db := rfl

theorem reconcileList_cons (db : TrafficDB) (l : String × Int × Int)
    (ls : List (String × Int × Int)) (d : Nat) :
    reconcileList db (l :: ls) d =
      reconcileList (reconStep db l.1 l.2.1 l.2.2 d) ls d := rfl

theorem wf_reconcileList (db : TrafficDB) (snaps : List (String × Int × Int))
    (d : Nat) (hwf : WellFormedDB db) :
    WellFormedDB (reconcileList db snaps d) := by
  induction snaps generalizing db with
  | nil => exact hwf
  | cons l ls ih =>
    rw [reconcileList_cons]
    exact ih _ (wf_reconStep db l.1 l.2.1 l.2.2 d hwf)

theorem reconcileList_frame_cum (db : TrafficDB)
    (snaps : List (String × Int × Int)) (d : Nat) (k : String)
    (hk : k ∉ snaps.map (fun s => s.1)) :
    findBy cumKey (reconcileList db snaps d).cumulative k =
      findBy cumKey db.cumulative k := by
  induction snaps generalizing db with
  | nil => rfl
  | cons l ls ih =>
    simp only [List.map_cons, List.mem_cons, not_or] at hk
    rw [reconcileList_cons, ih _ hk.2,
      reconStep_frame_cum db l.1 l.2.1 l.2.2 d k hk.1]

theorem reconcileList_frame_daily (db : TrafficDB)
    (snaps : List (String × Int × Int)) (d : Nat) (k : String) (dd : Nat)
    (hk : k ∉ snaps.map (fun s => s.1)) :
    findBy dailyKey (reconcileList db snaps d).daily (k, dd) =
      findBy dailyKey db.daily (k, dd) := by
  induction snaps generalizing db with
  | nil => rfl
  | cons l ls ih =>
    simp only [List.map_cons, List.mem_cons, not_or] at hk
    rw [reconcileList_cons, ih _ hk.2,
      reconStep_frame_daily db l.1 l.2.1 l.2.2 d k dd hk.1]

theorem reconcileList_post (db : TrafficDB)
    (snaps : List (String × Int × Int)) (d : Nat)
    (hnd : (snaps.map (fun s => s.1)).Nodup) :
    ∀ s ∈ snaps, ∃ brx btx : Int,
      findBy cumKey (reconcileList db snaps d).cumulative s.1 =
        some ⟨s.1, brx, btx, s.2.1, s.2.2⟩ ∧
      findBy dailyKey (reconcileList db snaps d).daily (s.1, d) =
        some ⟨s.1, d, brx + s.2.1, btx + s.2.2⟩ := by
  induction snaps generalizing db with
  | nil => intro s hs; cases hs
  | cons l ls ih =>
    rw [List.map_cons, List.nodup_cons] at hnd
    intro s hs
    rcases List.mem_cons.mp hs with rfl | hmem
    · refine ⟨foldedBase (loadCum db s.1).baseline_rx
          (loadCum db s.1).last_seen_rx s.2.1,
        foldedBase (loadCum db s.1).baseline_tx
          (loadCum db s.1).last_seen_tx s.2.2, ?_, ?_⟩
      · rw [reconcileList_cons, reconcileList_frame_cum _ _ _ _ hnd.1]
        exact findCum_reconStep_self db s.1 s.2.1 s.2.2 d
      · rw [reconcileList_cons, reconcileList_frame_daily _ _ _ _ _ hnd.1]
        exact findDaily_reconStep_self db s.1 s.2.1 s.2.2 d
    · rw [reconcileList_cons]
      exact ih _ hnd.2 s hmem

theorem reconStep_noop (s : TrafficDB) (pk : String) (rx tx brx btx : Int)
    (d : Nat) (hwf : WellFormedDB s)
    (hc : findBy cumKey s.cumulative pk = some ⟨pk, brx, btx, rx, tx⟩)
    (hd : findBy dailyKey s.daily (pk, d) =
      some ⟨pk, d, brx + rx, btx + tx⟩) :
    reconStep s pk rx tx d = s := by
  have hl : loadCum s pk = ⟨pk, brx, btx, rx, tx⟩ := by
    rw [loadCum, hc, Option.getD_some]
  have hfrx : foldedBase brx rx rx = brx := by simp [foldedBase]
  have hftx : foldedBase btx tx tx = btx := by simp [foldedBase]
  have h1 : upsertBy cumKey s.cumulative
      (⟨pk, brx, btx, rx, tx⟩ : CumRow) = s.cumulative :=
    upsertBy_self cumKey hwf.1 (by simpa [cumKey] using hc)
  have h2 : upsertBy dailyKey s.daily
      (⟨pk, d, brx + rx, btx + tx⟩ : DailyRow) = s.daily :=
    upsertBy_self dailyKey hwf.2 (by simpa [dailyKey] using hd)
  simp only [reconStep, hl, hfrx, hftx, h1, h2]

theorem reconcileList_noop (s : TrafficDB)
    (snaps : List (String × Int × Int)) (d : Nat)
    (h : ∀ l ∈ snaps, reconStep s l.1 l.2.1 l.2.2 d = s) :
    reconcileList s snaps d = s := by
  induction snaps with
  | nil => rfl
  | cons l ls ih =>
    rw [reconcileList_cons, h l (List.mem_cons_self l ls)]
    exact ih (fun x hx => h x (List.mem_cons_of_mem l hx))

/-- C10.  Reconcile is idempotent on an unchanged snapshot: applying the
reconcile pass a second time with the same readings and the same date leaves
the entire database (cumulative rows, daily rollups and alert rows) exactly
as after the first pass — the second pass detects no reset and rewrites the
same totals.  The hypotheses are the PRIMARY KEY constraints on the stored
tables and the per-peer keying of a `wg show dump` snapshot (each public key
appears on one line). -/
theorem reconcile_idempotent (db : TrafficDB)
    (snaps : List (String × Int × Int)) (d : Nat)
    (hwf : WellFormedDB db) (hnd : (snaps.map (fun s => s.1)).Nodup) :
    reconcileList (reconcileList db snaps d) snaps d =
      reconcileList db snaps d := by
  apply reconcileList_noop
  intro l hl
  obtain ⟨brx, btx, hc, hd⟩ := reconcileList_post db snaps d hnd l hl
  exact reconStep_noop _ _ _ _ _ _ _ (wf_reconcileList db snaps d hwf) hc hd

/-- Witness for C10: a concrete empty database and a two-peer snapshot. -/
theorem reconcile_idempotent_witness :
    WellFormedDB ⟨[], [], []⟩ ∧
    (([("a", 5, 7), ("b", 3, 0)].map
      (fun s : String × Int × Int => s.1)).Nodup) ∧
    reconcileList
        (reconcileList ⟨[], [], []⟩ [("a", 5, 7), ("b", 3, 0)] 2)
        [("a", 5, 7), ("b", 3, 0)] 2 =
      reconcileList ⟨[], [], []⟩ [("a", 5, 7), ("b", 3, 0)] 2 :=
  ⟨by decide, by decide,
    reconcile_idempotent ⟨[], [], []⟩ [("a", 5, 7), ("b", 3, 0)] 2
      (by decide) (by decide)⟩

/- ### Monthly usage (`get_monthly_usage`, lines 474-535) -/

/-- C3 (counterexample).  The claimed reference definition returns the bare
difference, but the code floors it at zero: with a pre-month row of total 10
and a single in-month row of total 5, the claimed value is -5 while the code
computes 0. -/
theorem monthly_usage_reference_counterexample :
    usageOf [⟨"p", 0, 10, 0⟩, ⟨"p", 5, 5, 0⟩] "p" 1 = 0 ∧
    usageClaimRef [⟨"p", 0, 10, 0⟩, ⟨"p", 5, 5, 0⟩] "p" 1 = -5 := by
  decide

theorem inMonth_pk {daily : List DailyRow} {pk : String} {ms : Nat}
    {r : DailyRow} (h : r ∈ inMonthRows daily pk ms) :
    r ∈ daily ∧ r.public_key = pk := by
  refine ⟨List.mem_of_mem_filter h, ?_⟩
  have := List.of_mem_filter h
  simp only [Bool.and_eq_true, decide_eq_true_eq] at this
  exact this.1

theorem findDaily_of_inMonth {daily : List DailyRow} {pk : String} {ms : Nat}
    {r : DailyRow} (hnd : (daily.map dailyKey).Nodup)
    (h : r ∈ inMonthRows daily pk ms) :
    findBy dailyKey daily (pk, r.date) = some r := by
  obtain ⟨hmem, hpk⟩ := inMonth_pk h
  have hf := findBy_eq_some_of_mem dailyKey hnd hmem
  rw [dailyKey, hpk] at hf
  exact hf

/-- C3 (amended).  Reference definition of the monthly usage, as the claim
states it but with the two subtracted quantities floored at zero: 0 when no
in-month row exists; for exactly one in-month row `r`,
`max (total r - total baseline) 0` when a pre-month baseline exists and
`total r` otherwise; for several in-month rows,
`max (total latest - total baseline) 0` when a baseline exists and
`max (total latest - total earliest) 0` otherwise; totals combine rx+tx.
The hypothesis is the PRIMARY KEY constraint of `traffic_daily`. -/
theorem monthly_usage_reference (daily : List DailyRow) (pk : String)
    (ms : Nat) (hnd : (daily.map dailyKey).Nodup) :
    (inMonthRows daily pk ms = [] → usageOf daily pk ms = 0) ∧
    (∀ r : DailyRow, inMonthRows daily pk ms = [r] →
      usageOf daily pk ms =
        (match preMonthRow daily pk ms with
         | some p => max (rowTotal r - rowTotal p) 0
         | none => rowTotal r)) ∧
    (∀ rFirst rLast : DailyRow,
      rFirst ∈ inMonthRows daily pk ms → rLast ∈ inMonthRows daily pk ms →
      (∀ x ∈ inMonthRows daily pk ms,
        rFirst.date ≤ x.date ∧ x.date ≤ rLast.date) →
      rFirst.date ≠ rLast.date →
      usageOf daily pk ms =
        (match preMonthRow daily pk ms with
         | some p => max (rowTotal rLast - rowTotal p) 0
         | none => max (rowTotal rLast - rowTotal rFirst) 0)) := by
  refine ⟨?_, ?_, ?_⟩
  · intro h
    simp only [usageOf, getMonthlyUsagePeer, h, List.map_nil, List.min?_nil,
      List.max?_nil, Option.getD_none]
  · intro r h
    have hfind : findBy dailyKey daily (pk, r.date) = some r :=
      findDaily_of_inMonth hnd (h ▸ List.mem_cons_self r [])
    simp only [usageOf, getMonthlyUsagePeer, h, List.map_cons, List.map_nil]
    rw [show ([r.date] : List Nat).min? = some r.date from rfl,
      show ([r.date] : List Nat).max? = some r.date from rfl]
    simp only [if_pos rfl, hfind]
    cases hp : preMonthRow daily pk ms <;> simp [rowTotal] <;>
      (congr 1; ring)
  · intro rFirst rLast h1 h2 hbounds hne
    have hfindF : findBy dailyKey daily (pk, rFirst.date) = some rFirst :=
      findDaily_of_inMonth hnd h1
    have hfindL : findBy dailyKey daily (pk, rLast.date) = some rLast :=
      findDaily_of_inMonth hnd h2
    have hmin : ((inMonthRows daily pk ms).map (fun r => r.date)).min? =
        some rFirst.date := by
      rw [List.min?_eq_some_iff']
      refine ⟨List.mem_map_of_mem _ h1, ?_⟩
      intro b hb
      obtain ⟨x, hx, rfl⟩ := List.mem_map.mp hb
      exact (hbounds x hx).1
    have hmax : ((inMonthRows daily pk ms).map (fun r => r.date)).max? =
        some rLast.date := by
      rw [List.max?_eq_some_iff']
      refine ⟨List.mem_map_of_mem _ h2, ?_⟩
      intro b hb
      obtain ⟨x, hx, rfl⟩ := List.mem_map.mp hb
      exact (hbounds x hx).2
    simp only [usageOf, getMonthlyUsagePeer, hmin, hmax, if_neg hne, hfindF,
      hfindL]
    cases hp : preMonthRow daily pk ms <;> simp [rowTotal] <;>
      (congr 1; ring)

/-- Witness for C3 on the spec's test property 3: rows of totals 100 and 900
in month, no pre-month baseline. -/
theorem monthly_usage_reference_witness :
    (([⟨"p", 1, 100, 0⟩, ⟨"p", 31, 900, 0⟩] :
        List DailyRow).map dailyKey).Nodup ∧
    (∀ rFirst rLast : DailyRow,
      rFirst ∈ inMonthRows [⟨"p", 1, 100, 0⟩, ⟨"p", 31, 900, 0⟩] "p" 1 →
      rLast ∈ inMonthRows [⟨"p", 1, 100, 0⟩, ⟨"p", 31, 900, 0⟩] "p" 1 →
      (∀ x ∈ inMonthRows [⟨"p", 1, 100, 0⟩, ⟨"p", 31, 900, 0⟩] "p" 1,
        rFirst.date ≤ x.date ∧ x.date ≤ rLast.date) →
      rFirst.date ≠ rLast.date →
      usageOf [⟨"p", 1, 100, 0⟩, ⟨"p", 31, 900, 0⟩] "p" 1 =
        (match preMonthRow [⟨"p", 1, 100, 0⟩, ⟨"p", 31, 900, 0⟩] "p" 1 with
         | some p => max (rowTotal rLast - rowTotal p) 0
         | none => max (rowTotal rLast - rowTotal rFirst) 0)) :=
  ⟨by decide,
    (monthly_usage_reference [⟨"p", 1, 100, 0⟩, ⟨"p", 31, 900, 0⟩] "p" 1
      (by decide)).2.2⟩

/-- C7.  Usage non-negativity: whatever the dates and ordering of the stored
rollup rows, the monthly usage computed by `get_monthly_usage` is
nonnegative.  The hypothesis is the data-model fact that stored byte
counters are nonnegative (every daily row is written as a sum of
nonnegative counter readings and baselines). -/
theorem monthly_usage_nonneg (daily : List DailyRow) (pk : String) (ms : Nat)
    (h : ∀ r ∈ daily, 0 ≤ r.rx_bytes ∧ 0 ≤ r.tx_bytes) :
    0 ≤ usageOf daily pk ms := by
  simp only [usageOf, getMonthlyUsagePeer]
  split
  · split
    · split
      · simp only [Option.getD_some]
        exact le_max_right _ _
      · rename_i row hrow hprev
        simp only [Option.getD_some]
        have hmem : row ∈ daily := by
          unfold findBy at hrow
          exact List.mem_of_find?_eq_some hrow
        have := h row hmem
        omega
      · simp
    · split
      · simp only [Option.getD_some]
        exact le_max_right _ _
      · simp
  · simp

/-- Witness for C7: an anomalous database whose pre-month row exceeds the
in-month rows and whose dates are unordered. -/
theorem monthly_usage_nonneg_witness :
    (∀ r ∈ ([⟨"p", 9, 50, 0⟩, ⟨"p", 3, 7, 1⟩, ⟨"p", 12, 6, 2⟩] :
        List DailyRow), 0 ≤ r.rx_bytes ∧ 0 ≤ r.tx_bytes) ∧
    0 ≤ usageOf [⟨"p", 9, 50, 0⟩, ⟨"p", 3, 7, 1⟩, ⟨"p", 12, 6, 2⟩] "p" 10 :=
  ⟨by decide,
    monthly_usage_nonneg [⟨"p", 9, 50, 0⟩, ⟨"p", 3, 7, 1⟩, ⟨"p", 12, 6, 2⟩]
      "p" 10 (by decide)⟩

/- ### Quota enforcer (`check_traffic_limits`, lines 538-602) -/

theorem alertedB_append_left {alerts : List AlertRow} {pk month : String}
    {t : Int} (ext : List AlertRow)
    (h : alertedB alerts pk month t = true) :
    alertedB (alerts ++ ext) pk month t = true := by
  simp only [alertedB, List.any_append, Bool.or_eq_true]
  exact Or.inl h

theorem alertedB_of_mem {alerts : List AlertRow} {pk month : String}
    {t : Int} {ts : String} (h : (⟨pk, month, t, ts⟩ : AlertRow) ∈ alerts) :
    alertedB alerts pk month t = true := by
  simp only [alertedB, List.any_eq_true]
  exact ⟨⟨pk, month, t, ts⟩, h, by simp⟩

theorem alertedB_false_not_mem {alerts : List AlertRow} {pk month : String}
    {t : Int} (h : alertedB alerts pk month t = false) :
    (pk, month, t) ∉ alerts.map alertKey := by
  intro hmem
  obtain ⟨a, ha, hka⟩ := List.mem_map.mp hmem
  simp only [alertKey, Prod.mk.injEq] at hka
  have : alertedB alerts pk month t = true := by
    simp only [alertedB, List.any_eq_true]
    exact ⟨a, ha, by simp [hka.1, hka.2.1, hka.2.2]⟩
  rw [h] at this
  cases this

theorem perPeerLoop_alerts_append (ctx : LimitCtx) (pk un : String)
    (used limitBytes : Int) (pct : Rat) (alerts : List AlertRow)
    (ts : List Int) :
    ∃ ext, (perPeerLoop ctx pk un used limitBytes pct alerts ts).1 =
      alerts ++ ext := by
  induction ts generalizing alerts with
  | nil => exact ⟨[], by simp [perPeerLoop]⟩
  | cons t rest ih =>
    simp only [perPeerLoop]
    split
    · exact ⟨[], by simp⟩
    · split
      · exact ih alerts
      · obtain ⟨ext, hext⟩ := ih (alerts ++ [⟨pk, ctx.month, t, ctx.nowIso⟩])
        exact ⟨⟨pk, ctx.month, t, ctx.nowIso⟩ :: ext,
          by rw [hext, List.append_assoc]; rfl⟩

theorem checkPeers_alerts_append (ctx : LimitCtx) (thresholds : List Int)
    (limitBytes : Int) (alerts : List AlertRow) (us : List (String × Int)) :
    ∃ ext, (checkPeers ctx thresholds limitBytes alerts us).1 =
      alerts ++ ext := by
  induction us generalizing alerts with
  | nil => exact ⟨[], by simp [checkPeers]⟩
  | cons p rest ih =>
    obtain ⟨pk, used⟩ := p
    simp only [checkPeers]
    cases hm : ctx.peerMap pk with
    | none => exact ih alerts
    | some un =>
      obtain ⟨e1, he1⟩ := perPeerLoop_alerts_append ctx pk un used limitBytes
        (pctOf limitBytes used) alerts thresholds
      obtain ⟨e2, he2⟩ := ih
        (perPeerLoop ctx pk un used limitBytes (pctOf limitBytes used)
          alerts thresholds).1
      exact ⟨e1 ++ e2, by rw [he2, he1, List.append_assoc]⟩

theorem perPeerLoop_complete (ctx : LimitCtx) (pk un : String)
    (used lb : Int) (pct : Rat) (ts : List Int) :
    ∀ alerts : List AlertRow, List.Sorted (· ≤ ·) ts →
    ∀ t ∈ ts, ¬ pct < (t : Rat) →
      alertedB (perPeerLoop ctx pk un used lb pct alerts ts).1
        pk ctx.month t = true := by
  induction ts with
  | nil => intro alerts _ t ht; cases ht
  | cons t0 rest ih =>
    intro alerts hs t ht hnt
    have hs' := List.sorted_cons.mp hs
    simp only [perPeerLoop]
    split
    · rename_i h1
      rcases List.mem_cons.mp ht with rfl | hmem
      · exact absurd h1 hnt
      · exfalso
        apply hnt
        have hle : ((t0 : Int) : Rat) ≤ ((t : Int) : Rat) := by
          exact_mod_cast hs'.1 t hmem
        exact lt_of_lt_of_le h1 hle
    · split
      · rename_i h1 h2
        rcases List.mem_cons.mp ht with rfl | hmem
        · obtain ⟨ext, hext⟩ := perPeerLoop_alerts_append ctx pk un used lb
            pct alerts rest
          rw [hext]
          exact alertedB_append_left ext h2
        · exact ih alerts hs'.2 t hmem hnt
      · rename_i h1 h2
        rcases List.mem_cons.mp ht with rfl | hmem
        · obtain ⟨ext, hext⟩ := perPeerLoop_alerts_append ctx pk un used lb
            pct (alerts ++ [⟨pk, ctx.month, t, ctx.nowIso⟩]) rest
          dsimp only
          rw [hext]
          apply alertedB_of_mem
          rw [List.append_assoc]
          exact List.mem_append_right alerts (List.mem_append_left _
            (List.mem_cons_self _ _))
        · dsimp only
          exact ih _ hs'.2 t hmem hnt

theorem perPeerLoop_noop (ctx : LimitCtx) (pk un : String) (used lb : Int)
    (pct : Rat) (alerts : List AlertRow) (ts : List Int)
    (h : ∀ t ∈ ts, ¬ pct < (t : Rat) →
      alertedB alerts pk ctx.month t = true) :
    perPeerLoop ctx pk un used lb pct alerts ts = (alerts, [], []) := by
  induction ts with
  | nil => rfl
  | cons t0 rest ih =>
    simp only [perPeerLoop]
    by_cases h1 : pct < (t0 : Rat)
    · rw [if_pos h1]
    · rw [if_neg h1, if_pos (h t0 (List.mem_cons_self t0 rest) h1)]
      exact ih (fun t ht => h t (List.mem_cons_of_mem t0 ht))

theorem checkPeers_complete (ctx : LimitCtx) (ts : List Int) (lb : Int)
    (us : List (String × Int)) :
    ∀ alerts : List AlertRow, List.Sorted (· ≤ ·) ts →
    ∀ p ∈ us, (ctx.peerMap p.1).isSome →
    ∀ t ∈ ts, ¬ pctOf lb p.2 < (t : Rat) →
      alertedB (checkPeers ctx ts lb alerts us).1 p.1 ctx.month t = true := by
  induction us with
  | nil => intro alerts _ p hp; cases hp
  | cons q rest ih =>
    intro alerts hs p hp hsome t ht hnt
    obtain ⟨pk0, used0⟩ := q
    simp only [checkPeers]
    cases hm : ctx.peerMap pk0 with
    | none =>
      rcases List.mem_cons.mp hp with rfl | hmem
      · rw [hm] at hsome
        cases hsome
      · exact ih alerts hs p hmem hsome t ht hnt
    | some un =>
      rcases List.mem_cons.mp hp with rfl | hmem
      · have h1 := perPeerLoop_complete ctx pk0 un used0 lb
          (pctOf lb used0) ts alerts hs t ht hnt
        obtain ⟨ext, hext⟩ := checkPeers_alerts_append ctx ts lb
          (perPeerLoop ctx pk0 un used0 lb (pctOf lb used0)
            alerts ts).1 rest
        dsimp only
        rw [hext]
        exact alertedB_append_left ext h1
      · dsimp only
        exact ih _ hs p hmem hsome t ht hnt

theorem checkPeers_noop (ctx : LimitCtx) (ts : List Int) (lb : Int)
    (us : List (String × Int)) :
    ∀ alerts : List AlertRow,
    (∀ p ∈ us, (ctx.peerMap p.1).isSome →
      ∀ t ∈ ts, ¬ pctOf lb p.2 < (t : Rat) →
        alertedB alerts p.1 ctx.month t = true) →
    checkPeers ctx ts lb alerts us = (alerts, [], []) := by
  induction us with
  | nil => intro alerts _; rfl
  | cons q rest ih =>
    intro alerts h
    obtain ⟨pk0, used0⟩ := q
    simp only [checkPeers]
    cases hm : ctx.peerMap pk0 with
    | none => exact ih alerts (fun p hp => h p (List.mem_cons_of_mem _ hp))
    | some un =>
      have hloop := perPeerLoop_noop ctx pk0 un used0 lb (pctOf lb used0)
        alerts ts
        (fun t ht hnt => h (pk0, used0) (List.mem_cons_self _ _)
          (by rw [hm]; rfl) t ht hnt)
      have hrest := ih alerts (fun p hp => h p (List.mem_cons_of_mem _ hp))
      dsimp only
      rw [hloop]
      dsimp only
      rw [hrest]
      rfl

theorem perPeerLoop_nodup (ctx : LimitCtx) (pk un : String) (used lb : Int)
    (pct : Rat) (ts : List Int) :
    ∀ alerts : List AlertRow, (alerts.map alertKey).Nodup →
    ((perPeerLoop ctx pk un used lb pct alerts ts).1.map alertKey).Nodup := by
  induction ts with
  | nil => intro alerts hnd; exact hnd
  | cons t0 rest ih =>
    intro alerts hnd
    simp only [perPeerLoop]
    split
    · exact hnd
    · split
      · exact ih alerts hnd
      · rename_i h1 h2
        dsimp only
        apply ih
        rw [List.map_append, List.nodup_append]
        refine ⟨hnd, by simp, ?_⟩
        intro k hk hk2
        simp only [List.map_cons, List.map_nil, List.mem_singleton] at hk2
        subst hk2
        exact alertedB_false_not_mem (by simpa using h2) hk

theorem checkPeers_nodup (ctx : LimitCtx) (ts : List Int) (lb : Int)
    (us : List (String × Int)) :
    ∀ alerts : List AlertRow, (alerts.map alertKey).Nodup →
    ((checkPeers ctx ts lb alerts us).1.map alertKey).Nodup := by
  induction us with
  | nil => intro alerts hnd; exact hnd
  | cons q rest ih =>
    intro alerts hnd
    obtain ⟨pk0, used0⟩ := q
    simp only [checkPeers]
    cases ctx.peerMap pk0 with
    | none => exact ih alerts hnd
    | some un =>
      dsimp only
      exact ih _ (perPeerLoop_nodup ctx pk0 un used0 lb (pctOf lb used0) ts
        alerts hnd)

theorem perPeerLoop_no_reemit (ctx : LimitCtx) (pkP un : String)
    (used lb : Int) (pct : Rat) (ts : List Int) :
    ∀ (alerts : List AlertRow) (pk : String) (t : Int),
    alertedB alerts pk ctx.month t = true →
    ∀ ev ∈ (perPeerLoop ctx pkP un used lb pct alerts ts).2.1,
      ¬(ev.public_key = pk ∧ ev.pct = t) := by
  induction ts with
  | nil => intro alerts pk t _ ev hev; cases hev
  | cons t0 rest ih =>
    intro alerts pk t hA ev hev hc
    simp only [perPeerLoop] at hev
    split at hev
    · cases hev
    · split at hev
      · exact ih alerts pk t hA ev hev hc
      · rename_i h1 h2
        dsimp only at hev
        rcases List.mem_cons.mp hev with rfl | hmem
        · obtain ⟨hpk, hpct⟩ := hc
          dsimp only at hpk hpct
          apply h2
          rw [hpk, hpct]
          exact hA
        · exact ih _ pk t (alertedB_append_left _ hA) ev hmem hc

theorem checkPeers_no_reemit (ctx : LimitCtx) (ts : List Int) (lb : Int)
    (us : List (String × Int)) :
    ∀ (alerts : List AlertRow) (pk : String) (t : Int),
    alertedB alerts pk ctx.month t = true →
    ∀ ev ∈ (checkPeers ctx ts lb alerts us).2.1,
      ¬(ev.public_key = pk ∧ ev.pct = t) := by
  induction us with
  | nil => intro alerts pk t _ ev hev; cases hev
  | cons q rest ih =>
    intro alerts pk t hA ev hev hc
    obtain ⟨pk0, used0⟩ := q
    simp only [checkPeers] at hev
    cases hm : ctx.peerMap pk0 with
    | none =>
      rw [hm] at hev
      exact ih alerts pk t hA ev hev hc
    | some un =>
      rw [hm] at hev
      dsimp only at hev
      rcases List.mem_append.mp hev with hmem | hmem
      · exact perPeerLoop_no_reemit ctx pk0 un used0 lb (pctOf lb used0) ts
          alerts pk t hA ev hmem hc
      · obtain ⟨ext, hext⟩ := perPeerLoop_alerts_append ctx pk0 un used0 lb
          (pctOf lb used0) alerts ts
        exact ih _ pk t (by rw [hext]; exact alertedB_append_left ext hA)
          ev hmem hc

/-- C4.  Alert deduplication: starting from an alert table satisfying the
(peer, month, threshold) uniqueness constraint, (1) the table still
satisfies it after a `check_traffic_limits` run, (2) re-running with the
same usage and month changes nothing and emits no events and no gate
calls, and (3) once a (peer, month, threshold) alert row exists, no later
run in that month ever emits an event for that peer and threshold again —
so each threshold crossing is alerted at most once. -/
theorem alert_dedup (ctx : LimitCtx) (alerts : List AlertRow)
    (usage : List (String × Int)) (hnd : (alerts.map alertKey).Nodup) :
    ((checkTrafficLimits ctx alerts usage).1.map alertKey).Nodup ∧
    checkTrafficLimits ctx (checkTrafficLimits ctx alerts usage).1 usage =
      ((checkTrafficLimits ctx alerts usage).1, [], []) ∧
    ∀ pk t, alertedB alerts pk ctx.month t = true →
      ∀ ev ∈ (checkTrafficLimits ctx alerts usage).2.1,
        ¬(ev.public_key = pk ∧ ev.pct = t) := by
  by_cases h0 : ctx.limitGb = 0
  · simp only [checkTrafficLimits, if_pos h0]
    refine ⟨hnd, by trivial, ?_⟩
    intro pk t _ ev hev
    cases hev
  · simp only [checkTrafficLimits, if_neg h0]
    have hsort : List.Sorted (· ≤ ·) (ctx.alertPcts.insertionSort (· ≤ ·)) :=
      List.sorted_insertionSort _ _
    refine ⟨checkPeers_nodup _ _ _ usage alerts hnd, ?_, ?_⟩
    · apply checkPeers_noop
      intro p hp hsome t ht hnt
      exact checkPeers_complete _ _ _ usage alerts hsort p hp hsome t ht hnt
    · intro pk t hA ev hev
      exact checkPeers_no_reemit _ _ _ usage alerts pk t hA ev hev

/-- Witness for C4: a peer at 95% of a 1 GiB limit against thresholds
[50, 80, 100], starting from an empty alert table. -/
theorem alert_dedup_witness :
    ((([] : List AlertRow)).map alertKey).Nodup ∧
    (((checkTrafficLimits
        ⟨fun _ => true, 1, [50, 80, 100],
          (fun pk => if pk = "p" then some "alice" else none),
          "2024-02", "T"⟩ [] [("p", 1020054732)]).1.map alertKey).Nodup ∧
      checkTrafficLimits
          ⟨fun _ => true, 1, [50, 80, 100],
            (fun pk => if pk = "p" then some "alice" else none),
            "2024-02", "T"⟩
          (checkTrafficLimits
            ⟨fun _ => true, 1, [50, 80, 100],
              (fun pk => if pk = "p" then some "alice" else none),
              "2024-02", "T"⟩ [] [("p", 1020054732)]).1
          [("p", 1020054732)] =
        ((checkTrafficLimits
          ⟨fun _ => true, 1, [50, 80, 100],
            (fun pk => if pk = "p" then some "alice" else none),
            "2024-02", "T"⟩ [] [("p", 1020054732)]).1, [], []) ∧
      ∀ pk t, alertedB [] pk
          (⟨fun _ => true, 1, [50, 80, 100],
            (fun pk => if pk = "p" then some "alice" else none),
            "2024-02", "T"⟩ : LimitCtx).month t = true →
        ∀ ev ∈ (checkTrafficLimits
            ⟨fun _ => true, 1, [50, 80, 100],
              (fun pk => if pk = "p" then some "alice" else none),
              "2024-02", "T"⟩ [] [("p", 1020054732)]).2.1,
          ¬(ev.public_key = pk ∧ ev.pct = t)) :=
  ⟨by decide,
    alert_dedup
      ⟨fun _ => true, 1, [50, 80, 100],
        (fun pk => if pk = "p" then some "alice" else none),
        "2024-02", "T"⟩ [] [("p", 1020054732)] (by decide)⟩

theorem perPeerLoop_action (ctx : LimitCtx) (pkP un : String)
    (used lb : Int) (pct : Rat) (ts : List Int) :
    ∀ alerts : List AlertRow,
    ∀ ev ∈ (perPeerLoop ctx pkP un used lb pct alerts ts).2.1,
      (ev.action = if 100 ≤ ev.pct then "blocked" else "warn") ∧
      (100 ≤ ev.pct → (ev.public_key, ctx.gateOk ev.public_key) ∈
        (perPeerLoop ctx pkP un used lb pct alerts ts).2.2) := by
  induction ts with
  | nil => intro alerts ev hev; cases hev
  | cons t0 rest ih =>
    intro alerts ev hev
    simp only [perPeerLoop] at hev ⊢
    by_cases h1 : pct < (t0 : Rat)
    · rw [if_pos h1] at hev
      cases hev
    · rw [if_neg h1] at hev ⊢
      by_cases h2 : alertedB alerts pkP ctx.month t0 = true
      · rw [if_pos h2] at hev ⊢
        exact ih alerts ev hev
      · rw [if_neg h2] at hev ⊢
        dsimp only at hev ⊢
        rcases List.mem_cons.mp hev with rfl | hmem
        · dsimp only
          constructor
          · rfl
          · intro h100
            rw [if_pos h100]
            exact List.mem_append_left _ (List.mem_cons_self _ _)
        · have hres := ih (alerts ++ [⟨pkP, ctx.month, t0, ctx.nowIso⟩])
            ev hmem
          exact ⟨hres.1, fun h100 =>
            List.mem_append_right _ (hres.2 h100)⟩

theorem checkPeers_action (ctx : LimitCtx) (ts : List Int) (lb : Int)
    (us : List (String × Int)) :
    ∀ alerts : List AlertRow,
    ∀ ev ∈ (checkPeers ctx ts lb alerts us).2.1,
      (ev.action = if 100 ≤ ev.pct then "blocked" else "warn") ∧
      (100 ≤ ev.pct → (ev.public_key, ctx.gateOk ev.public_key) ∈
        (checkPeers ctx ts lb alerts us).2.2) := by
  induction us with
  | nil => intro alerts ev hev; cases hev
  | cons q rest ih =>
    intro alerts ev hev
    obtain ⟨pk0, used0⟩ := q
    simp only [checkPeers] at hev ⊢
    cases hm : ctx.peerMap pk0 with
    | none =>
      rw [hm] at hev
      dsimp only at hev ⊢
      exact ih alerts ev hev
    | some un =>
      rw [hm] at hev
      dsimp only at hev ⊢
      rcases List.mem_append.mp hev with hmem | hmem
      · have hres := perPeerLoop_action ctx pk0 un used0 lb
          (pctOf lb used0) ts alerts ev hmem
        exact ⟨hres.1, fun h100 => List.mem_append_left _ (hres.2 h100)⟩
      · have hres := ih _ ev hmem
        exact ⟨hres.1, fun h100 => List.mem_append_right _ (hres.2 h100)⟩

theorem perPeerLoop_takeWhile (ctx : LimitCtx) (pkP un : String)
    (used lb : Int) (pct : Rat) (ts : List Int) :
    ∀ alerts : List AlertRow,
    perPeerLoop ctx pkP un used lb pct alerts ts =
      perPeerLoop ctx pkP un used lb pct alerts
        (ts.takeWhile (fun t => !decide (pct < (t : Rat)))) := by
  induction ts with
  | nil => intro alerts; rfl
  | cons t0 rest ih =>
    intro alerts
    by_cases h1 : pct < (t0 : Rat)
    · have hp : (!decide (pct < ((t0 : Int) : Rat))) = false := by
        simp [h1]
      rw [List.takeWhile_cons, hp]
      simp only [Bool.false_eq_true, if_false]
      simp only [perPeerLoop, if_pos h1]
    · have hp : (!decide (pct < ((t0 : Int) : Rat))) = true := by
        simp [h1]
      rw [List.takeWhile_cons, hp]
      simp only [if_true]
      simp only [perPeerLoop, if_neg h1]
      by_cases h2 : alertedB alerts pkP ctx.month t0 = true
      · rw [if_pos h2, if_pos h2]
        exact ih alerts
      · rw [if_neg h2, if_neg h2]
        have hi := ih
          (alerts ++ [(⟨pkP, ctx.month, t0, ctx.nowIso⟩ : AlertRow)])
        rw [hi]

/-- C5.  Block action mapping: every event emitted by
`check_traffic_limits` has action "blocked" exactly when its threshold is
at least 100 and action "warn" otherwise, and for each blocked event the
Peer Gate remove (`disable_peer`) is called on that peer as part of
emitting it; the thresholds are walked in the ascending sorted order and
processing stops at the first threshold the usage percentage does not
reach (only the reached prefix of the sorted thresholds matters). -/
theorem block_action_mapping (ctx : LimitCtx) (alerts : List AlertRow)
    (usage : List (String × Int)) :
    (∀ ev ∈ (checkTrafficLimits ctx alerts usage).2.1,
      (ev.action = "blocked" ↔ 100 ≤ ev.pct) ∧
      (¬ 100 ≤ ev.pct → ev.action = "warn") ∧
      (100 ≤ ev.pct → (ev.public_key, ctx.gateOk ev.public_key) ∈
        (checkTrafficLimits ctx alerts usage).2.2)) ∧
    List.Sorted (· ≤ ·) (ctx.alertPcts.insertionSort (· ≤ ·)) ∧
    (∀ (pk un : String) (used lb : Int) (pct : Rat)
      (al : List AlertRow),
      perPeerLoop ctx pk un used lb pct al
          (ctx.alertPcts.insertionSort (· ≤ ·)) =
        perPeerLoop ctx pk un used lb pct al
          ((ctx.alertPcts.insertionSort (· ≤ ·)).takeWhile
            (fun t => !decide (pct < (t : Rat))))) := by
  refine ⟨?_, List.sorted_insertionSort _ _, ?_⟩
  · by_cases h0 : ctx.limitGb = 0
    · simp only [checkTrafficLimits, if_pos h0]
      intro ev hev
      cases hev
    · simp only [checkTrafficLimits, if_neg h0]
      intro ev hev
      have hres := checkPeers_action ctx _ _ usage alerts ev hev
      refine ⟨?_, ?_, hres.2⟩
      · by_cases h100 : 100 ≤ ev.pct
        · rw [hres.1, if_pos h100]
          exact iff_of_true rfl h100
        · rw [hres.1, if_neg h100]
          exact iff_of_false (by decide) h100
      · intro h100
        rw [hres.1, if_neg h100]
  · intro pk un used lb pct al
    exact perPeerLoop_takeWhile ctx pk un used lb pct _ al

theorem perPeerLoop_gate (g1 g2 : String → Bool) (lg : Int) (ps : List Int)
    (pm : String → Option String) (mo now : String) (pkP un : String)
    (used lb : Int) (pct : Rat) (ts : List Int) :
    ∀ alerts : List AlertRow,
    (perPeerLoop ⟨g1, lg, ps, pm, mo, now⟩ pkP un used lb pct
        alerts ts).1 =
      (perPeerLoop ⟨g2, lg, ps, pm, mo, now⟩ pkP un used lb pct
        alerts ts).1 ∧
    (perPeerLoop ⟨g1, lg, ps, pm, mo, now⟩ pkP un used lb pct
        alerts ts).2.1 =
      (perPeerLoop ⟨g2, lg, ps, pm, mo, now⟩ pkP un used lb pct
        alerts ts).2.1 := by
  induction ts with
  | nil => intro alerts; exact ⟨rfl, rfl⟩
  | cons t0 rest ih =>
    intro alerts
    simp only [perPeerLoop]
    by_cases h1 : pct < (t0 : Rat)
    · rw [if_pos h1, if_pos h1]
      exact ⟨rfl, rfl⟩
    · rw [if_neg h1, if_neg h1]
      by_cases h2 : alertedB alerts pkP
          ((⟨g1, lg, ps, pm, mo, now⟩ : LimitCtx).month) t0 = true
      · rw [if_pos h2, if_pos h2]
        exact ih alerts
      · rw [if_neg h2, if_neg h2]
        dsimp only
        have hrec := ih
          (alerts ++ [(⟨pkP, mo, t0, now⟩ : AlertRow)])
        exact ⟨hrec.1, by rw [hrec.2]⟩

theorem checkPeers_gate (g1 g2 : String → Bool) (lg : Int) (ps : List Int)
    (pm : String → Option String) (mo now : String) (ts : List Int)
    (lb : Int) (us : List (String × Int)) :
    ∀ alerts : List AlertRow,
    (checkPeers ⟨g1, lg, ps, pm, mo, now⟩ ts lb alerts us).1 =
      (checkPeers ⟨g2, lg, ps, pm, mo, now⟩ ts lb alerts us).1 ∧
    (checkPeers ⟨g1, lg, ps, pm, mo, now⟩ ts lb alerts us).2.1 =
      (checkPeers ⟨g2, lg, ps, pm, mo, now⟩ ts lb alerts us).2.1 := by
  induction us with
  | nil => intro alerts; exact ⟨rfl, rfl⟩
  | cons q rest ih =>
    intro alerts
    obtain ⟨pk0, used0⟩ := q
    simp only [checkPeers]
    cases hm : pm pk0 with
    | none =>
      dsimp only
      exact ih alerts
    | some un =>
      dsimp only
      have hloop := perPeerLoop_gate g1 g2 lg ps pm mo now pk0 un used0 lb
        (pctOf lb used0) ts alerts
      constructor
      · rw [(ih _).1, hloop.1]
      · rw [hloop.2, (ih _).2, hloop.1]

theorem perPeerLoop_recorded (ctx : LimitCtx) (pkP un : String)
    (used lb : Int) (pct : Rat) (ts : List Int) :
    ∀ alerts : List AlertRow,
    ∀ ev ∈ (perPeerLoop ctx pkP un used lb pct alerts ts).2.1,
      (⟨ev.public_key, ctx.month, ev.pct, ctx.nowIso⟩ : AlertRow) ∈
        (perPeerLoop ctx pkP un used lb pct alerts ts).1 := by
  induction ts with
  | nil => intro alerts ev hev; cases hev
  | cons t0 rest ih =>
    intro alerts ev hev
    simp only [perPeerLoop] at hev ⊢
    by_cases h1 : pct < (t0 : Rat)
    · rw [if_pos h1] at hev
      cases hev
    · rw [if_neg h1] at hev ⊢
      by_cases h2 : alertedB alerts pkP ctx.month t0 = true
      · rw [if_pos h2] at hev ⊢
        exact ih alerts ev hev
      · rw [if_neg h2] at hev ⊢
        dsimp only at hev ⊢
        rcases List.mem_cons.mp hev with rfl | hmem
        · obtain ⟨ext, hext⟩ := perPeerLoop_alerts_append ctx pkP un used lb
            pct (alerts ++ [⟨pkP, ctx.month, t0, ctx.nowIso⟩]) rest
          rw [hext, List.append_assoc]
          exact List.mem_append_right alerts
            (List.mem_append_left ext (List.mem_cons_self _ _))
        · exact ih _ ev hmem

theorem checkPeers_recorded (ctx : LimitCtx) (ts : List Int) (lb : Int)
    (us : List (String × Int)) :
    ∀ alerts : List AlertRow,
    ∀ ev ∈ (checkPeers ctx ts lb alerts us).2.1,
      (⟨ev.public_key, ctx.month, ev.pct, ctx.nowIso⟩ : AlertRow) ∈
        (checkPeers ctx ts lb alerts us).1 := by
  induction us with
  | nil => intro alerts ev hev; cases hev
  | cons q rest ih =>
    intro alerts ev hev
    obtain ⟨pk0, used0⟩ := q
    simp only [checkPeers] at hev ⊢
    cases hm : ctx.peerMap pk0 with
    | none =>
      rw [hm] at hev
      dsimp only at hev ⊢
      exact ih alerts ev hev
    | some un =>
      rw [hm] at hev
      dsimp only at hev ⊢
      rcases List.mem_append.mp hev with hmem | hmem
      · have hrow := perPeerLoop_recorded ctx pk0 un used0 lb
          (pctOf lb used0) ts alerts ev hmem
        obtain ⟨ext, hext⟩ := checkPeers_alerts_append ctx ts lb
          (perPeerLoop ctx pk0 un used0 lb (pctOf lb used0) alerts ts).1
          rest
        rw [hext]
        exact List.mem_append_left ext hrow
      · exact ih _ ev hmem

/-- C9 (amended).  A failure of the Peer Gate remove call is NOT reported
to the caller of the enforcement cycle: `check_traffic_limits` discards the
`CommandResult` of `disable_peer`, so the alert table and the returned
event list are identical whatever the gate call returns.  The quota
crossing IS still recorded: every emitted event's (peer, month, threshold)
alert row is in the final alert table, so it is not retried every cycle. -/
theorem gate_failure_not_reported (g1 g2 : String → Bool) (lg : Int)
    (ps : List Int) (pm : String → Option String) (mo now : String)
    (alerts : List AlertRow) (usage : List (String × Int)) :
    (checkTrafficLimits ⟨g1, lg, ps, pm, mo, now⟩ alerts usage).1 =
      (checkTrafficLimits ⟨g2, lg, ps, pm, mo, now⟩ alerts usage).1 ∧
    (checkTrafficLimits ⟨g1, lg, ps, pm, mo, now⟩ alerts usage).2.1 =
      (checkTrafficLimits ⟨g2, lg, ps, pm, mo, now⟩ alerts usage).2.1 ∧
    ∀ ev ∈ (checkTrafficLimits ⟨g1, lg, ps, pm, mo, now⟩ alerts usage).2.1,
      (⟨ev.public_key, mo, ev.pct, now⟩ : AlertRow) ∈
        (checkTrafficLimits ⟨g1, lg, ps, pm, mo, now⟩ alerts usage).1 := by
  simp only [checkTrafficLimits]
  by_cases h0 : lg = 0
  · rw [if_pos h0, if_pos h0]
    refine ⟨rfl, rfl, ?_⟩
    intro ev hev
    cases hev
  · rw [if_neg h0, if_neg h0]
    have hg := checkPeers_gate g1 g2 lg ps pm mo now
      (ps.insertionSort (· ≤ ·)) (lg * 1024 ^ 3) usage alerts
    exact ⟨hg.1, hg.2, checkPeers_recorded _ _ _ usage alerts⟩

/-- C9 (counterexample).  The claim says a Peer Gate remove failure is
reported to the caller of the enforcement cycle.  It is not: on a concrete
run that blocks peer "p" at the 100% threshold, the caller-visible output
(the alert table and the event list) is identical whether the gate call
fails or succeeds — the trace records that the remove was attempted and
failed, yet the event still reads "blocked" and nothing reports the
failure. -/
theorem gate_failure_report_counterexample :
    (checkTrafficLimits ⟨fun _ => false, 1, [100],
        (fun pk => if pk = "p" then some "alice" else none), "2024-02", "T"⟩
        [] [("p", 1073741824)]).1 =
      (checkTrafficLimits ⟨fun _ => true, 1, [100],
        (fun pk => if pk = "p" then some "alice" else none), "2024-02", "T"⟩
        [] [("p", 1073741824)]).1 ∧
    (checkTrafficLimits ⟨fun _ => false, 1, [100],
        (fun pk => if pk = "p" then some "alice" else none), "2024-02", "T"⟩
        [] [("p", 1073741824)]).2.1 =
      (checkTrafficLimits ⟨fun _ => true, 1, [100],
        (fun pk => if pk = "p" then some "alice" else none), "2024-02", "T"⟩
        [] [("p", 1073741824)]).2.1 ∧
    (checkTrafficLimits ⟨fun _ => false, 1, [100],
        (fun pk => if pk = "p" then some "alice" else none), "2024-02", "T"⟩
        [] [("p", 1073741824)]).2.2 = [("p", false)] ∧
    (checkTrafficLimits ⟨fun _ => false, 1, [100],
        (fun pk => if pk = "p" then some "alice" else none), "2024-02", "T"⟩
        [] [("p", 1073741824)]).2.1 ≠ [] := by
  have hg := checkPeers_gate (fun _ => false) (fun _ => true) 1 [100]
    (fun pk => if pk = "p" then some "alice" else none) "2024-02" "T"
    (([100] : List Int).insertionSort (· ≤ ·)) ((1 : Int) * 1024 ^ 3)
    [("p", 1073741824)] []
  have hpct : pctOf ((1 : Int) * 1024 ^ 3) 1073741824 = 100 := by
    norm_num [pctOf]
  have hns : (([100] : List Int).insertionSort (· ≤ ·)) = [100] := rfl
  refine ⟨?_, ?_, ?_, ?_⟩
  · simpa only [checkTrafficLimits] using hg.1
  · simpa only [checkTrafficLimits] using hg.2
  · simp only [checkTrafficLimits, checkPeers, hns, hpct]
    norm_num [perPeerLoop, alertedB]
  · simp only [checkTrafficLimits, checkPeers, hns, hpct]
    norm_num [perPeerLoop, alertedB]

/- ### Snapshot parser (`_parse_wg_dump`, lines 345-366) and the raw-line
reconcile pass of `snapshot_traffic` (lines 255-295) -/

theorem parseWgDump_eq_go (peerMap : String → Option String)
    (lines : List (List String)) :
    parseWgDump peerMap lines = parseGo peerMap lines.tail := by
  unfold parseWgDump
  split
  · rcases lines with _ | ⟨a, _ | ⟨b, r⟩⟩
    · rfl
    · rfl
    · rename_i h
      simp only [List.length_cons] at h
      omega
  · rfl

theorem parseGo_drop_malformed (peerMap : String → Option String)
    (pre post : List (List String)) (bad : List String)
    (hbad : bad.length < 8) :
    parseGo peerMap (pre ++ bad :: post) = parseGo peerMap (pre ++ post) := by
  induction pre with
  | nil =>
    simp only [List.nil_append, parseGo]
    rw [show parsePeerLine peerMap bad = Except.ok none from by
      unfold parsePeerLine; rw [if_pos hbad]]
  | cons a pre ih =>
    simp only [List.cons_append, parseGo]
    cases parsePeerLine peerMap a with
    | error e => rfl
    | ok o =>
      cases o with
      | none => exact ih
      | some p =>
        dsimp only
        exact congrArg (Except.map (fun ps => p :: ps)) ih

theorem snapshotGo_drop_malformed (today : Nat)
    (pre post : List (List String)) (bad : List String)
    (hbad : bad.length < 8) :
    ∀ db : TrafficDB,
    snapshotGo today db (pre ++ bad :: post) =
      snapshotGo today db (pre ++ post) := by
  induction pre with
  | nil =>
    intro db
    simp only [List.nil_append, snapshotGo]
    rw [show snapshotLine db bad today = Except.ok db from by
      unfold snapshotLine; rw [if_pos hbad]]
  | cons a pre ih =>
    intro db
    simp only [List.cons_append, snapshotGo]
    cases snapshotLine db a today with
    | error e => rfl
    | ok db2 => exact ih db2

/-- C8.  Malformed-line tolerance: a data line with fewer than 8
tab-separated fields is dropped silently by both the snapshot parser and
the reconcile pass of `snapshot_traffic` — the result (parsed records, or
reconciled database state, including any failure outcome) is exactly the
result on the same dump with the malformed line removed, so a malformed
line never aborts the batch and all remaining lines are still
processed. -/
theorem malformed_line_dropped (peerMap : String → Option String)
    (db : TrafficDB) (today : Nat) (header bad : List String)
    (pre post : List (List String)) (hbad : bad.length < 8) :
    parseWgDump peerMap (header :: (pre ++ bad :: post)) =
      parseWgDump peerMap (header :: (pre ++ post)) ∧
    snapshotDump db (header :: (pre ++ bad :: post)) today =
      snapshotDump db (header :: (pre ++ post)) today := by
  constructor
  · rw [parseWgDump_eq_go, parseWgDump_eq_go]
    exact parseGo_drop_malformed peerMap pre post bad hbad
  · exact snapshotGo_drop_malformed today pre post bad hbad db

/-- Witness for C8 on the spec's test property 7: a dump with a header, one
well-formed line, and one 5-field line. -/
theorem malformed_line_dropped_witness :
    (["k", "(none)", "(none)", "10.0.0.3/32", "5"] : List String).length
      < 8 ∧
    (parseWgDump (fun _ => none)
        [["header"], ["pk1", "(none)", "1.2.3.4:5", "10.0.0.2/32", "0",
          "100", "200", "25"],
          ["k", "(none)", "(none)", "10.0.0.3/32", "5"]] =
      parseWgDump (fun _ => none)
        [["header"], ["pk1", "(none)", "1.2.3.4:5", "10.0.0.2/32", "0",
          "100", "200", "25"]] ∧
    snapshotDump ⟨[], [], []⟩
        [["header"], ["pk1", "(none)", "1.2.3.4:5", "10.0.0.2/32", "0",
          "100", "200", "25"],
          ["k", "(none)", "(none)", "10.0.0.3/32", "5"]] 3 =
      snapshotDump ⟨[], [], []⟩
        [["header"], ["pk1", "(none)", "1.2.3.4:5", "10.0.0.2/32", "0",
          "100", "200", "25"]] 3) :=
  ⟨by decide,
    malformed_line_dropped (fun _ => none) ⟨[], [], []⟩ 3 ["header"]
      ["k", "(none)", "(none)", "10.0.0.3/32", "5"]
      [["pk1", "(none)", "1.2.3.4:5", "10.0.0.2/32", "0", "100", "200",
        "25"]] [] (by decide)⟩
